import Mathlib

/-!
Shallow embedding of the rtasks terminal task manager (src/main.rs).

The data model (`Task`, `App`, `AppMode`), the task-store operations
(`add_task`, `delete_task`, `toggle_task`, `edit_current_task`,
`edit_current_description`, `move_up`, `move_down`), the key handler
(`handle_input`) and the startup loading logic (`loadNextId`, `App.init`)
are translated directly from the Rust source.  Terminal I/O and file I/O
are outside the embedding: `save_tasks` has no observable effect on the
application state, and persistence is modelled for the round-trip claim
by a structured-value codec (`tasksToJson` / `jsonToTasks`).

Strings are Lean `String`s; Rust's `str::trim`, `String::pop` and
`String::push` are embedded as `trimChars`, `popChar` and `String.push`
over the character list of the string.
-/

namespace RTasks

/-- A task record, mirroring `struct Task` in the source
(`id: usize`, `title: String`, `description: String`, `completed: bool`). -/
structure Task where
  id : Nat
  title : String
  description : String
  completed : Bool
deriving DecidableEq, Repr, Inhabited

/-- The input-mode enum, mirroring `enum AppMode` in the source. -/
inductive AppMode where
  | Normal
  | AddTask
  | EditTask
  | AddDescription
  | EditDescription
deriving DecidableEq, Repr, Inhabited

/-- The application state, mirroring `struct App` in the source. -/
structure App where
  tasks : List Task
  selected_index : Nat
  mode : AppMode
  input_buffer : String
  next_id : Nat
deriving DecidableEq, Repr, Inhabited

/-- Rust `str::trim`: strip leading and trailing whitespace characters. -/
def trimChars (s : String) : String :=
  (((s.data.dropWhile Char.isWhitespace).reverse.dropWhile
      Char.isWhitespace).reverse).asString

/-- Rust `String::pop` (as used on the input buffer): remove the last
character, a no-op on the empty string. -/
def popChar (s : String) : String :=
  s.data.dropLast.asString

/-- Replace the element at an index by applying `f`; out-of-range indices
leave the list unchanged.  Used to embed `self.tasks[i].field = ...`. -/
def modifyAt (f : Task → Task) : Nat → List Task → List Task
  | _, [] => []
  | 0, t :: ts => f t :: ts
  | n + 1, t :: ts => t :: modifyAt f n ts

/-- Rust `Vec::remove` at an index, totalised: out-of-range indices leave
the list unchanged (the source only calls it under an in-range guard). -/
def removeAt : Nat → List Task → List Task
  | _, [] => []
  | 0, _ :: ts => ts
  | n + 1, t :: ts => t :: removeAt n ts

/-- The id counter recomputed at load time:
`next_id = max existing id + 1`, or the initial `1` when the list is
empty (from `App::load_tasks`, starting value `next_id: 1` in `App::new`). -/
def loadNextId (ts : List Task) : Nat :=
  match (ts.map Task.id).max? with
  | some m => m + 1
  | none => 1

/-- `App::new` followed by `load_tasks` on an already-deserialized task
list `ts`: tasks loaded, selection 0, Normal mode, empty buffer, id
counter recomputed. -/
def App.init (ts : List Task) : App :=
  { tasks := ts
    selected_index := 0
    mode := AppMode.Normal
    input_buffer := ""
    next_id := loadNextId ts }

/-- `App::add_task`: append a task with the next id, the given title and
description, not completed; increment the id counter.  (`save_tasks` is
external I/O with no effect on the state.) -/
def App.add_task (app : App) (title descr : String) : App :=
  { app with
    tasks := app.tasks ++
      [{ id := app.next_id, title := title, description := descr,
         completed := false }]
    next_id := app.next_id + 1 }

/-- `App::delete_task`: guarded removal of the selected task followed by
the selection repair `selected_index = len - 1` when the old selection
fell off the end of a still non-empty list. -/
def App.delete_task (app : App) : App :=
  if !app.tasks.isEmpty && app.selected_index < app.tasks.length then
    let tasks := removeAt app.selected_index app.tasks
    let sel :=
      if app.selected_index ≥ tasks.length && !tasks.isEmpty then
        tasks.length - 1
      else
        app.selected_index
    { app with tasks := tasks, selected_index := sel }
  else
    app

/-- `App::toggle_task`: flip `completed` on the selected task when the
selection is in range. -/
def App.toggle_task (app : App) : App :=
  if !app.tasks.isEmpty && app.selected_index < app.tasks.length then
    { app with
      tasks := modifyAt (fun t => { t with completed := !t.completed })
        app.selected_index app.tasks }
  else
    app

/-- `App::edit_current_task`: replace the selected task's title when the
selection is in range. -/
def App.edit_current_task (app : App) (title : String) : App :=
  if !app.tasks.isEmpty && app.selected_index < app.tasks.length then
    { app with
      tasks := modifyAt (fun t => { t with title := title })
        app.selected_index app.tasks }
  else
    app

/-- `App::edit_current_description`: replace the selected task's
description when the selection is in range. -/
def App.edit_current_description (app : App) (descr : String) : App :=
  if !app.tasks.isEmpty && app.selected_index < app.tasks.length then
    { app with
      tasks := modifyAt (fun t => { t with description := descr })
        app.selected_index app.tasks }
  else
    app

/-- `App::move_up`: decrement the selection when the list is non-empty
and the selection is positive. -/
def App.move_up (app : App) : App :=
  if !app.tasks.isEmpty && 0 < app.selected_index then
    { app with selected_index := app.selected_index - 1 }
  else
    app

/-- `App::move_down`: increment the selection when the list is non-empty
and the selection is below the last index. -/
def App.move_down (app : App) : App :=
  if !app.tasks.isEmpty && app.selected_index < app.tasks.length - 1 then
    { app with selected_index := app.selected_index + 1 }
  else
    app

/-- The key codes the handler distinguishes (`crossterm::KeyCode`);
every other key is `other`. -/
inductive KeyCode where
  | Char (c : Char)
  | Up
  | Down
  | Delete
  | Esc
  | Enter
  | Backspace
  | other
deriving DecidableEq, Repr

/-- A key event: the code plus whether the CONTROL modifier is held
(the only modifier the handler inspects). -/
structure KeyEvent where
  code : KeyCode
  ctrl : Bool
deriving DecidableEq, Repr

/-- `handle_input`: one dispatch step of the state machine.  Returns
`(continue?, new state)`; `continue? = false` signals termination
(`q`/`Q` in Normal mode, Ctrl-C in an entry mode). -/
def handle_input (app : App) (ev : KeyEvent) : Bool × App :=
  match app.mode with
  | AppMode.Normal =>
    match ev.code with
    | KeyCode.Char c =>
      if c = 'q' ∨ c = 'Q' then (false, app)
      else if c = ' ' then (true, app.toggle_task)
      else if c = 'a' ∨ c = 'A' then
        (true, { app with mode := AppMode.AddTask, input_buffer := "" })
      else if c = 'e' ∨ c = 'E' then
        (true,
          if !app.tasks.isEmpty then
            { app with
              mode := AppMode.EditTask
              input_buffer :=
                (app.tasks.getD app.selected_index default).title }
          else app)
      else if c = 'd' ∨ c = 'D' then
        (true,
          if !app.tasks.isEmpty then
            { app with
              mode := AppMode.EditDescription
              input_buffer :=
                (app.tasks.getD app.selected_index default).description }
          else app)
      else (true, app)
    | KeyCode.Up => (true, app.move_up)
    | KeyCode.Down => (true, app.move_down)
    | KeyCode.Delete => (true, app.delete_task)
    | _ => (true, app)
  | _ =>
    match ev.code with
    | KeyCode.Esc =>
      (true, { app with mode := AppMode.Normal, input_buffer := "" })
    | KeyCode.Enter =>
      let input := trimChars app.input_buffer
      if input ≠ "" then
        match app.mode with
        | AppMode.AddTask =>
          let title := app.input_buffer
          let app1 := App.add_task
            { app with mode := AppMode.AddDescription, input_buffer := "" }
            title ""
          (true, { app1 with mode := AppMode.Normal, input_buffer := "" })
        | AppMode.EditTask =>
          (true,
            { app.edit_current_task input with
              mode := AppMode.Normal, input_buffer := "" })
        | AppMode.AddDescription =>
          (true, { app with mode := AppMode.Normal, input_buffer := "" })
        | AppMode.EditDescription =>
          (true,
            { app.edit_current_description input with
              mode := AppMode.Normal, input_buffer := "" })
        | AppMode.Normal =>
          (true, { app with input_buffer := "" })
      else
        (true, { app with mode := AppMode.Normal, input_buffer := "" })
    | KeyCode.Backspace =>
      (true, { app with input_buffer := popChar app.input_buffer })
    | KeyCode.Char c =>
      if ev.ctrl then
        if c = 'c' then (false, app) else (true, app)
      else
        (true, { app with input_buffer := app.input_buffer.push c })
    | _ => (true, app)

/-- The state after handling a whole list of key events, from the main
loop in `main` (the loop stops on a `false` flag; feeding further events
to the pure step only leaves the state subject to the same transitions,
so invariants proved over `run` cover every state the loop can reach). -/
def run (app : App) (evs : List KeyEvent) : App :=
  evs.foldl (fun a ev => (handle_input a ev).2) app

/-- A sequence of `add_task` calls (title, description pairs). -/
def runAdds (app : App) (ops : List (String × String)) : App :=
  ops.foldl (fun a p => a.add_task p.1 p.2) app

/-- The one-shot CLI add path in `main`: load, then `add_task` with the
argument of `--add` and the (possibly defaulted) `--description`. -/
def cli_add (ts : List Task) (title descr : String) : App :=
  (App.init ts).add_task title descr

/-- The tasks a sequence of `add_task` calls creates, starting from id
counter `n`: consecutive ids, the given titles and descriptions, not
completed. -/
def newTasks : Nat → List (String × String) → List Task
  | _, [] => []
  | n, p :: ops =>
    { id := n, title := p.1, description := p.2, completed := false } ::
      newTasks (n + 1) ops

/-- The selection invariant: on an empty list the selection sits at its
initial 0; on a non-empty list it is a valid index. -/
def SelInv (app : App) : Prop :=
  (app.tasks.length = 0 ∧ app.selected_index = 0) ∨
    app.selected_index < app.tasks.length

/-- The mode invariant: the machine is never left in `AddDescription`. -/
def ModeInv (app : App) : Prop :=
  app.mode ≠ AppMode.AddDescription

/-- Modelled from the spec: the textual JSON layer of the external
`serde_json` crate is not part of this repository, so the backing store
is modelled at the structured-value level (§6: "a textual
structured-record format (field names: id, title, description,
completed)"). -/
inductive Json where
  | null
  | bool (b : Bool)
  | num (n : Nat)
  | str (s : String)
  | arr (xs : List Json)
  | obj (fields : List (String × Json))

/-- Serialization of one task, mirroring the serde derive on
`struct Task`: an object with the four named fields. -/
def taskToJson (t : Task) : Json :=
  Json.obj [("id", Json.num t.id), ("title", Json.str t.title),
    ("description", Json.str t.description),
    ("completed", Json.bool t.completed)]

/-- `serde_json::to_string_pretty(&self.tasks)` at the value level:
a JSON array of task objects (`App::save_tasks`). -/
def save_tasks (ts : List Task) : Json :=
  Json.arr (ts.map taskToJson)

/-- Deserialization of one task: all four fields must be present with
the right shapes, as serde requires for a non-optional struct field. -/
def jsonToTask : Json → Option Task
  | Json.obj fields =>
    match fields.lookup "id", fields.lookup "title",
        fields.lookup "description", fields.lookup "completed" with
    | some (Json.num i), some (Json.str t), some (Json.str d),
        some (Json.bool c) =>
      some { id := i, title := t, description := d, completed := c }
    | _, _, _, _ => none
  | _ => none

/-- Deserialization of a list of task values; any failing element fails
the whole parse, as `serde_json::from_str::<Vec<Task>>` does. -/
def decodeTasks : List Json → Option (List Task)
  | [] => some []
  | j :: js =>
    match jsonToTask j, decodeTasks js with
    | some t, some ts => some (t :: ts)
    | _, _ => none

/-- `serde_json::from_str::<Vec<Task>>` at the value level: the stored
value must be an array of well-formed task objects. -/
def jsonToTasks : Json → Option (List Task)
  | Json.arr xs => decodeTasks xs
  | _ => none

/-- `App::load_tasks` on a backing store modelled as `Option Json`
(`none` when the file is absent): on a successful parse the tasks are
installed and the id counter recomputed; a missing or malformed store
leaves the fresh state `([], 1)` from `App::new`. -/
def load_tasks (store : Option Json) : List Task × Nat :=
  match store with
  | none => ([], 1)
  | some j =>
    match jsonToTasks j with
    | some ts => (ts, loadNextId ts)
    | none => ([], 1)

/-- A state reachable from startup: `App::new` + `load_tasks` followed by
any sequence of handled input events. -/
def reachable (ts : List Task) (evs : List KeyEvent) : App :=
  run (App.init ts) evs

theorem modifyAt_length (f : Task → Task) (n : Nat) (l : List Task) :
    (modifyAt f n l).length = l.length := by
  induction l generalizing n with
  | nil => cases n <;> rfl
  | cons t ts ih =>
    cases n with
    | zero => rfl
    | succ m => simp [modifyAt, ih]

theorem modifyAt_getElem? (f : Task → Task) (n : Nat) (l : List Task)
    (i : Nat) :
    (modifyAt f n l)[i]? = if i = n then l[i]?.map f else l[i]? := by
  induction l generalizing n i with
  | nil => simp [modifyAt]
  | cons t ts ih =>
    cases n with
    | zero =>
      cases i with
      | zero => simp [modifyAt]
      | succ j => simp [modifyAt]
    | succ m =>
      cases i with
      | zero => simp [modifyAt]
      | succ j => simpa [modifyAt] using ih m j

theorem modifyAt_modifyAt (f g : Task → Task) (n : Nat) (l : List Task) :
    modifyAt f n (modifyAt g n l) = modifyAt (fun t => f (g t)) n l := by
  induction l generalizing n with
  | nil => cases n <;> rfl
  | cons t ts ih =>
    cases n with
    | zero => rfl
    | succ m => simp [modifyAt, ih]

theorem modifyAt_id (n : Nat) (l : List Task) :
    modifyAt (fun t => t) n l = l := by
  induction l generalizing n with
  | nil => cases n <;> rfl
  | cons t ts ih =>
    cases n with
    | zero => rfl
    | succ m => simp [modifyAt, ih]

theorem removeAt_length {n : Nat} {l : List Task} (h : n < l.length) :
    (removeAt n l).length = l.length - 1 := by
  induction l generalizing n with
  | nil => simp at h
  | cons t ts ih =>
    cases n with
    | zero => simp [removeAt]
    | succ m =>
      have hm : m < ts.length := by simpa using h
      have := ih hm
      simp only [removeAt, List.length_cons, this]
      omega

theorem id_lt_loadNextId {ts : List Task} {t : Task} (h : t ∈ ts) :
    t.id < loadNextId ts := by
  have hmem : t.id ∈ ts.map Task.id := List.mem_map_of_mem _ h
  cases hmax : (ts.map Task.id).max? with
  | none =>
    rw [List.max?_eq_none_iff] at hmax
    simp [hmax] at hmem
  | some m =>
    have hle := (List.max?_eq_some_iff'.mp hmax).2 _ hmem
    have hln : loadNextId ts = m + 1 := by
      unfold loadNextId
      rw [hmax]
    omega

/-- C1 (amended): when Enter is pressed in AddTask mode with a buffer
whose trimmed form is non-empty, a task whose title is the RAW
(untrimmed) buffer and whose description is empty is appended at the
end; the mode returns to Normal and the buffer is cleared. -/
theorem addTask_enter_commits_raw_title (app : App) (b : Bool)
    (hmode : app.mode = AppMode.AddTask)
    (hne : trimChars app.input_buffer ≠ "") :
    handle_input app { code := KeyCode.Enter, ctrl := b } =
      (true,
        { app with
          tasks := app.tasks ++
            [{ id := app.next_id, title := app.input_buffer,
               description := "", completed := false }]
          next_id := app.next_id + 1
          mode := AppMode.Normal
          input_buffer := "" }) := by
  simp [handle_input, hmode, hne, App.add_task]

/-- C1 witness: committing the buffer `"hi"` from AddTask mode appends
the task `(1, "hi", "", false)` and returns to Normal. -/
theorem addTask_enter_commits_raw_title_witness :
    handle_input
        { tasks := [], selected_index := 0, mode := AppMode.AddTask,
          input_buffer := "hi", next_id := 1 }
        { code := KeyCode.Enter, ctrl := false } =
      (true,
        { tasks := [⟨1, "hi", "", false⟩],
          selected_index := 0, mode := AppMode.Normal,
          input_buffer := "", next_id := 2 }) :=
  addTask_enter_commits_raw_title _ _ rfl (by decide)

/-- C1 counterexample: with buffer `" hi "` the committed title is the
raw buffer `" hi "`, not the trimmed buffer `"hi"` the claim requires
(the source uses `app.input_buffer.clone()`, not the trimmed `input`). -/
theorem addTask_enter_title_not_trimmed :
    ((handle_input
        { tasks := [], selected_index := 0, mode := AppMode.AddTask,
          input_buffer := " hi ", next_id := 1 }
        { code := KeyCode.Enter, ctrl := false }).2.tasks.map Task.title) ≠
      [trimChars " hi "] := by
  decide

/-- C5: Enter in AddTask, EditTask or EditDescription mode with a
whitespace-only (trimmed-empty) buffer mutates no task: the state only
returns to Normal with a cleared buffer. -/
theorem enter_trimmed_empty_no_mutation (app : App) (b : Bool)
    (hmode : app.mode = AppMode.AddTask ∨ app.mode = AppMode.EditTask ∨
      app.mode = AppMode.EditDescription)
    (hempty : trimChars app.input_buffer = "") :
    handle_input app { code := KeyCode.Enter, ctrl := b } =
      (true, { app with mode := AppMode.Normal, input_buffer := "" }) := by
  rcases hmode with h | h | h <;> simp [handle_input, h, hempty]

/-- C5 witness: Enter on the whitespace-only buffer `"  "` in AddTask
mode leaves the single task untouched and returns to Normal. -/
theorem enter_trimmed_empty_no_mutation_witness :
    handle_input
        { tasks := [⟨1, "t", "", false⟩],
          selected_index := 0, mode := AppMode.AddTask,
          input_buffer := "  ", next_id := 2 }
        { code := KeyCode.Enter, ctrl := false } =
      (true,
        { tasks := [⟨1, "t", "", false⟩],
          selected_index := 0, mode := AppMode.Normal,
          input_buffer := "", next_id := 2 }) :=
  enter_trimmed_empty_no_mutation _ _ (Or.inl rfl) (by decide)

/-- C6: Escape in any non-Normal mode returns to Normal with an empty
buffer and leaves the task list (and everything else) unchanged. -/
theorem escape_returns_to_normal (app : App) (b : Bool)
    (hmode : app.mode ≠ AppMode.Normal) :
    handle_input app { code := KeyCode.Esc, ctrl := b } =
      (true, { app with mode := AppMode.Normal, input_buffer := "" }) := by
  cases h : app.mode with
  | Normal => exact absurd h hmode
  | AddTask => simp [handle_input, h]
  | EditTask => simp [handle_input, h]
  | AddDescription => simp [handle_input, h]
  | EditDescription => simp [handle_input, h]

/-- C6 witness: Escape from EditTask mode with a dirty buffer discards
the edit and clears the buffer. -/
theorem escape_returns_to_normal_witness :
    handle_input
        { tasks := [⟨1, "t", "", false⟩],
          selected_index := 0, mode := AppMode.EditTask,
          input_buffer := "draft", next_id := 2 }
        { code := KeyCode.Esc, ctrl := false } =
      (true,
        { tasks := [⟨1, "t", "", false⟩],
          selected_index := 0, mode := AppMode.Normal,
          input_buffer := "", next_id := 2 }) :=
  escape_returns_to_normal _ _ (by decide)

/-- C2: delete removes the selected task and repairs the selection: on a
now-empty list the selection is untouched (irrelevant), otherwise it is
clamped to `new_length - 1` when it fell off the end and kept otherwise;
delete is a no-op out of range.  The final two conjuncts are the spec
scenario: three tasks with selection 2 become two tasks with selection 1. -/
theorem delete_task_repairs_selection (app : App) :
    (¬ app.selected_index < app.tasks.length → app.delete_task = app) ∧
    (app.selected_index < app.tasks.length →
      app.delete_task.tasks = removeAt app.selected_index app.tasks ∧
      app.delete_task.tasks.length = app.tasks.length - 1 ∧
      (app.delete_task.tasks.length ≠ 0 →
        app.delete_task.selected_index =
          if app.delete_task.tasks.length ≤ app.selected_index then
            app.delete_task.tasks.length - 1
          else app.selected_index)) ∧
    (App.delete_task
        { tasks := [⟨1, "a", "", false⟩, ⟨2, "b", "", false⟩,
            ⟨3, "c", "", false⟩],
          selected_index := 2, mode := AppMode.Normal,
          input_buffer := "", next_id := 4 }).tasks.length = 2 ∧
    (App.delete_task
        { tasks := [⟨1, "a", "", false⟩, ⟨2, "b", "", false⟩,
            ⟨3, "c", "", false⟩],
          selected_index := 2, mode := AppMode.Normal,
          input_buffer := "", next_id := 4 }).selected_index = 1 := by
  refine ⟨?_, ?_, by decide, by decide⟩
  · intro hout
    simp only [App.delete_task]
    rw [if_neg]
    simp [hout]
  · intro hin
    have hne : app.tasks.isEmpty = false := by
      cases h : app.tasks
      · rw [h] at hin; simp at hin
      · simp
    have htasks : app.delete_task.tasks = removeAt app.selected_index app.tasks := by
      simp [App.delete_task, hne, hin]
    have hlen : (removeAt app.selected_index app.tasks).length =
        app.tasks.length - 1 := removeAt_length hin
    refine ⟨htasks, by rw [htasks, hlen], ?_⟩
    intro hne0
    rw [htasks] at hne0
    have hne2 : (removeAt app.selected_index app.tasks).isEmpty = false := by
      cases h : removeAt app.selected_index app.tasks
      · rw [h] at hne0; simp at hne0
      · simp
    rw [htasks]
    simp only [App.delete_task, hne, hin, Bool.not_false, Bool.true_and,
      decide_True, if_true, hne2]
    split_ifs <;> simp_all <;> omega

/-- C7: toggling flips exactly the selected task's completed flag (all
other positions are untouched), toggling twice restores the whole state,
and toggling out of range (in particular on an empty list) is a no-op. -/
theorem toggle_task_flips_selected (app : App) :
    (app.selected_index < app.tasks.length →
      ∀ i : Nat, app.toggle_task.tasks[i]? =
        if i = app.selected_index then
          (app.tasks[i]?).map (fun t => { t with completed := !t.completed })
        else app.tasks[i]?) ∧
    (¬ app.selected_index < app.tasks.length → app.toggle_task = app) ∧
    app.toggle_task.toggle_task = app := by
  have hnoop : ¬ app.selected_index < app.tasks.length →
      app.toggle_task = app := by
    intro hout
    simp only [App.toggle_task]
    rw [if_neg]
    simp [hout]
  refine ⟨?_, hnoop, ?_⟩
  · intro hin i
    have hne : app.tasks.isEmpty = false := by
      cases h : app.tasks
      · rw [h] at hin; simp at hin
      · simp
    simp [App.toggle_task, hne, hin, modifyAt_getElem?]
  · by_cases hin : app.selected_index < app.tasks.length
    · have hne : app.tasks.isEmpty = false := by
        cases h : app.tasks
        · rw [h] at hin; simp at hin
        · simp
      have h1 : app.toggle_task =
          { app with
            tasks := modifyAt (fun t => { t with completed := !t.completed })
              app.selected_index app.tasks } := by
        simp [App.toggle_task, hne, hin]
      rw [h1]
      have hlen : (modifyAt (fun t => { t with completed := !t.completed })
          app.selected_index app.tasks).length = app.tasks.length :=
        modifyAt_length _ _ _
      have hne2 : (modifyAt (fun t => { t with completed := !t.completed })
          app.selected_index app.tasks).isEmpty = false := by
        cases h : modifyAt (fun t => { t with completed := !t.completed })
            app.selected_index app.tasks
        · rw [h] at hlen
          simp at hlen
          rw [← hlen] at hin
          simp at hin
        · simp
      simp only [App.toggle_task, hne2, hlen, hin, Bool.not_false,
        Bool.true_and, decide_True, if_true, modifyAt_modifyAt]
      have hid : (fun t : Task =>
          ({ { t with completed := !t.completed } with
              completed := !(!t.completed) } : Task)) = fun t => t := by
        funext t
        simp
      rw [hid, modifyAt_id]
    · rw [hnoop hin, hnoop hin]

/-- C7 witness: toggling the selected task of a concrete two-task state
flips exactly position 0, a second toggle restores the state, and
toggling an out-of-range selection is a no-op. -/
theorem toggle_task_flips_selected_witness :
    (let app : App :=
      { tasks := [⟨1, "a", "", false⟩, ⟨2, "b", "", true⟩],
        selected_index := 0, mode := AppMode.Normal,
        input_buffer := "", next_id := 3 }
    (app.selected_index < app.tasks.length →
      ∀ i : Nat, app.toggle_task.tasks[i]? =
        if i = app.selected_index then
          (app.tasks[i]?).map (fun t => { t with completed := !t.completed })
        else app.tasks[i]?) ∧
    (¬ app.selected_index < app.tasks.length → app.toggle_task = app) ∧
    app.toggle_task.toggle_task = app) :=
  toggle_task_flips_selected _

/-- C10: `add_task` validates nothing: an empty title is appended as-is
with the given description, both through the store operation and through
the one-shot CLI add path. -/
theorem add_task_accepts_empty_title (app : App) (descr : String)
    (ts : List Task) :
    (app.add_task "" descr).tasks =
      app.tasks ++ [(⟨app.next_id, "", descr, false⟩ : Task)] ∧
    (cli_add ts "" descr).tasks =
      ts ++ [(⟨loadNextId ts, "", descr, false⟩ : Task)] :=
  ⟨rfl, rfl⟩

theorem runAdds_tasks (app : App) (ops : List (String × String)) :
    (runAdds app ops).tasks = app.tasks ++ newTasks app.next_id ops := by
  induction ops generalizing app with
  | nil => simp [runAdds, newTasks]
  | cons p ops ih =>
    have h1 : runAdds app (p :: ops) = runAdds (app.add_task p.1 p.2) ops :=
      rfl
    rw [h1, ih]
    simp [App.add_task, newTasks]

theorem newTasks_ids (n : Nat) (ops : List (String × String)) :
    (newTasks n ops).map Task.id = List.range' n ops.length := by
  induction ops generalizing n with
  | nil => rfl
  | cons p ops ih => simp [newTasks, ih, List.range']

/-- C3: starting from any loaded state, every sequence of adds assigns
strictly increasing ids to the new tasks, and when the loaded ids were
already pairwise distinct, no two tasks in the session share an id. -/
theorem add_ids_strictly_increasing (ts : List Task)
    (ops : List (String × String)) (h : (ts.map Task.id).Nodup) :
    List.Pairwise (fun a b => a < b)
      (((runAdds (App.init ts) ops).tasks.map Task.id).drop ts.length) ∧
    ((runAdds (App.init ts) ops).tasks.map Task.id).Nodup := by
  have hts : (runAdds (App.init ts) ops).tasks =
      ts ++ newTasks (loadNextId ts) ops := runAdds_tasks (App.init ts) ops
  rw [hts, List.map_append, newTasks_ids]
  constructor
  · rw [List.drop_left']
    · exact List.pairwise_lt_range' _ _
    · simp
  · rw [List.nodup_append]
    refine ⟨h, List.nodup_range' _ _, ?_⟩
    intro a ha hb
    rw [List.mem_range'_1] at hb
    obtain ⟨t, ht, rfl⟩ := List.mem_map.mp ha
    have := id_lt_loadNextId ht
    omega

/-- C3 witness: loading one task with id 5 and adding twice yields ids
`[5, 6, 7]`: the new ids 6, 7 are strictly increasing and the whole id
list is duplicate-free. -/
theorem add_ids_strictly_increasing_witness :
    (([(⟨5, "a", "", false⟩ : Task)].map Task.id).Nodup) ∧
    (List.Pairwise (fun a b => a < b)
      (((runAdds (App.init [⟨5, "a", "", false⟩])
          [("x", ""), ("y", "")]).tasks.map Task.id).drop
        ([(⟨5, "a", "", false⟩ : Task)].length)) ∧
    ((runAdds (App.init [⟨5, "a", "", false⟩])
        [("x", ""), ("y", "")]).tasks.map Task.id).Nodup) :=
  ⟨by decide, add_ids_strictly_increasing _ _ (by decide)⟩

theorem jsonToTask_taskToJson (t : Task) :
    jsonToTask (taskToJson t) = some t := rfl

theorem decodeTasks_map_taskToJson (ts : List Task) :
    decodeTasks (ts.map taskToJson) = some ts := by
  induction ts with
  | nil => rfl
  | cons t ts ih => simp [decodeTasks, jsonToTask_taskToJson, ih]

/-- C8: saving any task sequence and reloading it restores the sequence
structurally and sets the id counter to `max id + 1`; a missing store or
one that fails to parse loads as the fresh state `([], 1)`, and on an
empty sequence the counter is the initial 1. -/
theorem store_roundtrip (ts : List Task) (j : Json)
    (hbad : jsonToTasks j = none) :
    load_tasks (some (save_tasks ts)) = (ts, loadNextId ts) ∧
    (∀ m, (ts.map Task.id).max? = some m → loadNextId ts = m + 1) ∧
    ((ts.map Task.id).max? = none → loadNextId ts = 1) ∧
    load_tasks none = ([], 1) ∧
    load_tasks (some j) = ([], 1) := by
  refine ⟨?_, ?_, ?_, rfl, ?_⟩
  · simp [load_tasks, save_tasks, jsonToTasks, decodeTasks_map_taskToJson]
  · intro m hm
    unfold loadNextId
    rw [hm]
  · intro hm
    unfold loadNextId
    rw [hm]
  · simp [load_tasks, hbad]

/-- C8 witness: a concrete two-task store round-trips with the counter
resuming at 8, and the non-array value `Json.null` fails to parse and
loads as the fresh state. -/
theorem store_roundtrip_witness :
    jsonToTasks Json.null = none ∧
    (load_tasks (some (save_tasks [⟨3, "a", "b", true⟩, ⟨7, "c", "", false⟩])) =
        ([⟨3, "a", "b", true⟩, ⟨7, "c", "", false⟩], loadNextId
          [⟨3, "a", "b", true⟩, ⟨7, "c", "", false⟩]) ∧
      (∀ m, (([(⟨3, "a", "b", true⟩ : Task), ⟨7, "c", "", false⟩]).map
          Task.id).max? = some m →
        loadNextId [⟨3, "a", "b", true⟩, ⟨7, "c", "", false⟩] = m + 1) ∧
      ((([(⟨3, "a", "b", true⟩ : Task), ⟨7, "c", "", false⟩]).map
          Task.id).max? = none →
        loadNextId [⟨3, "a", "b", true⟩, ⟨7, "c", "", false⟩] = 1) ∧
      load_tasks none = ([], 1) ∧
      load_tasks (some Json.null) = ([], 1)) :=
  ⟨rfl, store_roundtrip _ _ rfl⟩

theorem selInv_congr {a b : App} (h : SelInv a)
    (hlen : b.tasks.length = a.tasks.length)
    (hsel : b.selected_index = a.selected_index) : SelInv b := by
  unfold SelInv at *
  rw [hlen, hsel]
  exact h

theorem selInv_add (app : App) (s d : String) (h : SelInv app) :
    SelInv (app.add_task s d) := by
  unfold SelInv App.add_task at *
  rcases h with ⟨h1, h2⟩ | h1
  · right
    simp [h2]
  · right
    simp
    omega

theorem selInv_toggle (app : App) (h : SelInv app) :
    SelInv app.toggle_task := by
  unfold App.toggle_task
  split
  · exact selInv_congr h (modifyAt_length _ _ _) rfl
  · exact h

theorem selInv_edit_title (app : App) (s : String) (h : SelInv app) :
    SelInv (app.edit_current_task s) := by
  unfold App.edit_current_task
  split
  · exact selInv_congr h (modifyAt_length _ _ _) rfl
  · exact h

theorem selInv_edit_desc (app : App) (s : String) (h : SelInv app) :
    SelInv (app.edit_current_description s) := by
  unfold App.edit_current_description
  split
  · exact selInv_congr h (modifyAt_length _ _ _) rfl
  · exact h

theorem selInv_move_up (app : App) (h : SelInv app) :
    SelInv app.move_up := by
  unfold SelInv App.move_up at *
  split
  next hc =>
    rcases h with ⟨h1, h2⟩ | h1
    · left
      exact ⟨h1, by simp [h2]⟩
    · right
      show app.selected_index - 1 < app.tasks.length
      omega
  next hc => exact h

theorem selInv_move_down (app : App) (h : SelInv app) :
    SelInv app.move_down := by
  unfold SelInv App.move_down at *
  split
  next hc =>
    simp only [Bool.and_eq_true, decide_eq_true_eq] at hc
    right
    show app.selected_index + 1 < app.tasks.length
    omega
  next hc => exact h

theorem delete_task_eq_of_lt (app : App)
    (hin : app.selected_index < app.tasks.length) :
    app.delete_task =
      { app with
        tasks := removeAt app.selected_index app.tasks
        selected_index :=
          if app.selected_index ≥ (removeAt app.selected_index app.tasks).length
              && !(removeAt app.selected_index app.tasks).isEmpty then
            (removeAt app.selected_index app.tasks).length - 1
          else app.selected_index } := by
  have hne : app.tasks.isEmpty = false := by
    cases hh : app.tasks
    · rw [hh] at hin; simp at hin
    · simp
  simp [App.delete_task, hne, hin]

theorem delete_task_eq_of_ge (app : App)
    (hout : ¬ app.selected_index < app.tasks.length) :
    app.delete_task = app := by
  simp only [App.delete_task]
  rw [if_neg]
  simp [hout]

theorem selInv_delete (app : App) (h : SelInv app) :
    SelInv app.delete_task := by
  by_cases hin : app.selected_index < app.tasks.length
  · rw [delete_task_eq_of_lt app hin]
    have hlen := removeAt_length hin
    unfold SelInv
    by_cases hc : (app.selected_index ≥
        (removeAt app.selected_index app.tasks).length
        && !(removeAt app.selected_index app.tasks).isEmpty) = true
    · rw [hc]
      simp only [Bool.and_eq_true, Bool.not_eq_true', decide_eq_true_eq] at hc
      have h0 : (removeAt app.selected_index app.tasks).length ≠ 0 := by
        intro h0
        have : removeAt app.selected_index app.tasks = [] :=
          List.length_eq_zero.mp h0
        rw [this] at hc
        simp at hc
      right
      show (removeAt app.selected_index app.tasks).length - 1 <
        (removeAt app.selected_index app.tasks).length
      omega
    · rw [Bool.not_eq_true] at hc
      rw [hc]
      simp only [Bool.and_eq_false_iff, Bool.not_eq_false',
        decide_eq_false_iff_not, not_le] at hc
      rcases hc with hlt | hEmpty
      · right
        exact hlt
      · have h0 : (removeAt app.selected_index app.tasks).length = 0 := by
          rw [List.isEmpty_iff] at hEmpty
          rw [hEmpty]
          rfl
        left
        refine ⟨h0, ?_⟩
        show app.selected_index = 0
        omega
  · rw [delete_task_eq_of_ge app hin]
    exact h

theorem toggle_task_mode (app : App) : app.toggle_task.mode = app.mode := by
  unfold App.toggle_task
  split <;> rfl

theorem delete_task_mode (app : App) : app.delete_task.mode = app.mode := by
  unfold App.delete_task
  split <;> rfl

theorem move_up_mode (app : App) : app.move_up.mode = app.mode := by
  unfold App.move_up
  split <;> rfl

theorem move_down_mode (app : App) : app.move_down.mode = app.mode := by
  unfold App.move_down
  split <;> rfl

theorem selInv_step (app : App) (ev : KeyEvent) (h : SelInv app) :
    SelInv (handle_input app ev).2 := by
  cases hm : app.mode with
  | Normal =>
    cases hc : ev.code with
    | Char c =>
      simp only [handle_input, hm, hc]
      split_ifs <;>
        first
          | exact h
          | exact selInv_toggle app h
          | exact selInv_congr h rfl rfl
    | Up => simpa only [handle_input, hm, hc] using selInv_move_up app h
    | Down => simpa only [handle_input, hm, hc] using selInv_move_down app h
    | Delete => simpa only [handle_input, hm, hc] using selInv_delete app h
    | Esc => simpa only [handle_input, hm, hc] using h
    | Enter => simpa only [handle_input, hm, hc] using h
    | Backspace => simpa only [handle_input, hm, hc] using h
    | other => simpa only [handle_input, hm, hc] using h
  | AddTask =>
    cases hc : ev.code with
    | Char c =>
      simp only [handle_input, hm, hc]
      split_ifs <;> exact selInv_congr h rfl rfl
    | Esc =>
      simp only [handle_input, hm, hc]
      exact selInv_congr h rfl rfl
    | Enter =>
      simp only [handle_input, hm, hc]
      split
      case isTrue =>
        exact selInv_congr (selInv_add _ _ _ (selInv_congr h rfl rfl)) rfl rfl
      case isFalse => exact selInv_congr h rfl rfl
    | Backspace =>
      simp only [handle_input, hm, hc]
      exact selInv_congr h rfl rfl
    | Up => simpa only [handle_input, hm, hc] using h
    | Down => simpa only [handle_input, hm, hc] using h
    | Delete => simpa only [handle_input, hm, hc] using h
    | other => simpa only [handle_input, hm, hc] using h
  | EditTask =>
    cases hc : ev.code with
    | Char c =>
      simp only [handle_input, hm, hc]
      split_ifs <;> exact selInv_congr h rfl rfl
    | Esc =>
      simp only [handle_input, hm, hc]
      exact selInv_congr h rfl rfl
    | Enter =>
      simp only [handle_input, hm, hc]
      split
      case isTrue => exact selInv_congr (selInv_edit_title _ _ h) rfl rfl
      case isFalse => exact selInv_congr h rfl rfl
    | Backspace =>
      simp only [handle_input, hm, hc]
      exact selInv_congr h rfl rfl
    | Up => simpa only [handle_input, hm, hc] using h
    | Down => simpa only [handle_input, hm, hc] using h
    | Delete => simpa only [handle_input, hm, hc] using h
    | other => simpa only [handle_input, hm, hc] using h
  | AddDescription =>
    cases hc : ev.code with
    | Char c =>
      simp only [handle_input, hm, hc]
      split_ifs <;> exact selInv_congr h rfl rfl
    | Esc =>
      simp only [handle_input, hm, hc]
      exact selInv_congr h rfl rfl
    | Enter =>
      simp only [handle_input, hm, hc]
      split
      case isTrue => exact selInv_congr h rfl rfl
      case isFalse => exact selInv_congr h rfl rfl
    | Backspace =>
      simp only [handle_input, hm, hc]
      exact selInv_congr h rfl rfl
    | Up => simpa only [handle_input, hm, hc] using h
    | Down => simpa only [handle_input, hm, hc] using h
    | Delete => simpa only [handle_input, hm, hc] using h
    | other => simpa only [handle_input, hm, hc] using h
  | EditDescription =>
    cases hc : ev.code with
    | Char c =>
      simp only [handle_input, hm, hc]
      split_ifs <;> exact selInv_congr h rfl rfl
    | Esc =>
      simp only [handle_input, hm, hc]
      exact selInv_congr h rfl rfl
    | Enter =>
      simp only [handle_input, hm, hc]
      split
      case isTrue => exact selInv_congr (selInv_edit_desc _ _ h) rfl rfl
      case isFalse => exact selInv_congr h rfl rfl
    | Backspace =>
      simp only [handle_input, hm, hc]
      exact selInv_congr h rfl rfl
    | Up => simpa only [handle_input, hm, hc] using h
    | Down => simpa only [handle_input, hm, hc] using h
    | Delete => simpa only [handle_input, hm, hc] using h
    | other => simpa only [handle_input, hm, hc] using h

theorem modeInv_step (app : App) (ev : KeyEvent) (h : ModeInv app) :
    ModeInv (handle_input app ev).2 := by
  unfold ModeInv at *
  cases hm : app.mode with
  | Normal =>
    cases hc : ev.code with
    | Char c =>
      simp only [handle_input, hm, hc]
      split_ifs <;>
        simp [hm, toggle_task_mode]
    | Up =>
      simp only [handle_input, hm, hc]
      simp [move_up_mode, hm]
    | Down =>
      simp only [handle_input, hm, hc]
      simp [move_down_mode, hm]
    | Delete =>
      simp only [handle_input, hm, hc]
      simp [delete_task_mode, hm]
    | Esc => simp [handle_input, hm, hc]
    | Enter => simp [handle_input, hm, hc]
    | Backspace => simp [handle_input, hm, hc]
    | other => simp [handle_input, hm, hc]
  | AddDescription => exact absurd hm h
  | AddTask =>
    cases hc : ev.code with
    | Char c =>
      simp only [handle_input, hm, hc]
      split_ifs <;> simp [hm]
    | Esc => simp [handle_input, hm, hc]
    | Enter =>
      simp only [handle_input, hm, hc]
      split <;> simp
    | Backspace => simp [handle_input, hm, hc]
    | Up => simp [handle_input, hm, hc]
    | Down => simp [handle_input, hm, hc]
    | Delete => simp [handle_input, hm, hc]
    | other => simp [handle_input, hm, hc]
  | EditTask =>
    cases hc : ev.code with
    | Char c =>
      simp only [handle_input, hm, hc]
      split_ifs <;> simp [hm]
    | Esc => simp [handle_input, hm, hc]
    | Enter =>
      simp only [handle_input, hm, hc]
      split <;> simp
    | Backspace => simp [handle_input, hm, hc]
    | Up => simp [handle_input, hm, hc]
    | Down => simp [handle_input, hm, hc]
    | Delete => simp [handle_input, hm, hc]
    | other => simp [handle_input, hm, hc]
  | EditDescription =>
    cases hc : ev.code with
    | Char c =>
      simp only [handle_input, hm, hc]
      split_ifs <;> simp [hm]
    | Esc => simp [handle_input, hm, hc]
    | Enter =>
      simp only [handle_input, hm, hc]
      split <;> simp
    | Backspace => simp [handle_input, hm, hc]
    | Up => simp [handle_input, hm, hc]
    | Down => simp [handle_input, hm, hc]
    | Delete => simp [handle_input, hm, hc]
    | other => simp [handle_input, hm, hc]

theorem run_cons (app : App) (e : KeyEvent) (es : List KeyEvent) :
    run app (e :: es) = run (handle_input app e).2 es := rfl

theorem selInv_run (app : App) (evs : List KeyEvent) (h : SelInv app) :
    SelInv (run app evs) := by
  induction evs generalizing app with
  | nil => exact h
  | cons e es ih =>
    rw [run_cons]
    exact ih _ (selInv_step app e h)

theorem modeInv_run (app : App) (evs : List KeyEvent) (h : ModeInv app) :
    ModeInv (run app evs) := by
  induction evs generalizing app with
  | nil => exact h
  | cons e es ih =>
    rw [run_cons]
    exact ih _ (modeInv_step app e h)

theorem selInv_init (ts : List Task) : SelInv (App.init ts) := by
  unfold SelInv App.init
  cases ts with
  | nil => exact Or.inl ⟨rfl, rfl⟩
  | cons t l =>
    right
    simp

theorem selInv_reachable (ts : List Task) (evs : List KeyEvent) :
    SelInv (reachable ts evs) :=
  selInv_run _ _ (selInv_init ts)

theorem move_up_tasks (app : App) : app.move_up.tasks = app.tasks := by
  unfold App.move_up
  split <;> rfl

theorem move_down_tasks (app : App) : app.move_down.tasks = app.tasks := by
  unfold App.move_down
  split <;> rfl

theorem move_up_empty (app : App) (h : app.tasks = []) :
    app.move_up = app := by
  unfold App.move_up
  rw [if_neg]
  simp [h]

theorem move_down_empty (app : App) (h : app.tasks = []) :
    app.move_down = app := by
  unfold App.move_down
  rw [if_neg]
  simp [h]

theorem move_up_sel (app : App) (h : app.tasks ≠ []) :
    app.move_up.selected_index = app.selected_index - 1 := by
  have hne : app.tasks.isEmpty = false := by
    cases hh : app.tasks
    · exact absurd hh h
    · simp
  unfold App.move_up
  split
  next hc => rfl
  next hc =>
    simp [hne] at hc
    show app.selected_index = app.selected_index - 1
    omega

theorem move_down_sel (app : App)
    (hin : app.selected_index < app.tasks.length) :
    app.move_down.selected_index =
      min (app.selected_index + 1) (app.tasks.length - 1) := by
  have hne : app.tasks.isEmpty = false := by
    cases hh : app.tasks
    · rw [hh] at hin; simp at hin
    · simp
  unfold App.move_down
  split
  next hc =>
    simp [hne] at hc
    show app.selected_index + 1 = _
    omega
  next hc =>
    simp [hne] at hc
    show app.selected_index = _
    omega

theorem handle_up_normal (app : App) (b : Bool)
    (h : app.mode = AppMode.Normal) :
    (handle_input app { code := KeyCode.Up, ctrl := b }).2 = app.move_up := by
  simp [handle_input, h]

theorem handle_down_normal (app : App) (b : Bool)
    (h : app.mode = AppMode.Normal) :
    (handle_input app { code := KeyCode.Down, ctrl := b }).2 =
      app.move_down := by
  simp [handle_input, h]

/-- C4: in every state reachable from startup by any input sequence, a
non-empty task list has its selection inside `[0, len-1]`; in Normal
mode the up and down keys dispatch to `move_up`/`move_down`, which move
the selection by exactly one clamped to the valid range, never touch the
task list, and are no-ops on an empty list. -/
theorem selection_valid_and_arrows_clamped (ts : List Task)
    (evs : List KeyEvent) :
    ((reachable ts evs).tasks ≠ [] →
      (reachable ts evs).selected_index < (reachable ts evs).tasks.length) ∧
    (∀ b : Bool, (reachable ts evs).mode = AppMode.Normal →
      (handle_input (reachable ts evs) { code := KeyCode.Up, ctrl := b }).2 =
          (reachable ts evs).move_up ∧
      (handle_input (reachable ts evs)
          { code := KeyCode.Down, ctrl := b }).2 =
          (reachable ts evs).move_down) ∧
    (reachable ts evs).move_up.tasks = (reachable ts evs).tasks ∧
    (reachable ts evs).move_down.tasks = (reachable ts evs).tasks ∧
    ((reachable ts evs).tasks = [] →
      (reachable ts evs).move_up = reachable ts evs ∧
      (reachable ts evs).move_down = reachable ts evs) ∧
    ((reachable ts evs).tasks ≠ [] →
      (reachable ts evs).move_up.selected_index =
        (reachable ts evs).selected_index - 1 ∧
      (reachable ts evs).move_down.selected_index =
        min ((reachable ts evs).selected_index + 1)
          ((reachable ts evs).tasks.length - 1)) := by
  have hsel := selInv_reachable ts evs
  have hin : (reachable ts evs).tasks ≠ [] →
      (reachable ts evs).selected_index <
        (reachable ts evs).tasks.length := by
    intro hne
    unfold SelInv at hsel
    rcases hsel with ⟨h1, -⟩ | h1
    · exact absurd (List.length_eq_zero.mp h1) hne
    · exact h1
  refine ⟨hin, ?_, move_up_tasks _, move_down_tasks _, ?_, ?_⟩
  · intro b hm
    exact ⟨handle_up_normal _ _ hm, handle_down_normal _ _ hm⟩
  · intro he
    exact ⟨move_up_empty _ he, move_down_empty _ he⟩
  · intro hne
    exact ⟨move_up_sel _ hne, move_down_sel _ (hin hne)⟩

/-- C9: starting from the initial Normal mode, after handling any
sequence of input events the machine is never left in `AddDescription`:
its mode is always one of the other four.  The AddTask commit path
creates the task and returns to Normal within the same step. -/
theorem addDescription_never_rests (ts : List Task) (evs : List KeyEvent) :
    (reachable ts evs).mode ∈
      [AppMode.Normal, AppMode.AddTask, AppMode.EditTask,
        AppMode.EditDescription] := by
  have h : ModeInv (reachable ts evs) := by
    apply modeInv_run
    unfold ModeInv App.init
    simp
  unfold ModeInv at h
  cases hmode : (reachable ts evs).mode with
  | Normal => simp
  | AddTask => simp
  | EditTask => simp
  | EditDescription => simp
  | AddDescription => exact absurd hmode h

/-- C2 witness: the delete characterization evaluated at the concrete
three-task state with selection 2 (the spec scenario). -/
theorem delete_task_repairs_selection_witness :
    (let app : App :=
      { tasks := [⟨1, "a", "", false⟩, ⟨2, "b", "", false⟩,
          ⟨3, "c", "", false⟩],
        selected_index := 2, mode := AppMode.Normal,
        input_buffer := "", next_id := 4 }
    (¬ app.selected_index < app.tasks.length → app.delete_task = app) ∧
    (app.selected_index < app.tasks.length →
      app.delete_task.tasks = removeAt app.selected_index app.tasks ∧
      app.delete_task.tasks.length = app.tasks.length - 1 ∧
      (app.delete_task.tasks.length ≠ 0 →
        app.delete_task.selected_index =
          if app.delete_task.tasks.length ≤ app.selected_index then
            app.delete_task.tasks.length - 1
          else app.selected_index)) ∧
    (App.delete_task
        { tasks := [⟨1, "a", "", false⟩, ⟨2, "b", "", false⟩,
            ⟨3, "c", "", false⟩],
          selected_index := 2, mode := AppMode.Normal,
          input_buffer := "", next_id := 4 }).tasks.length = 2 ∧
    (App.delete_task
        { tasks := [⟨1, "a", "", false⟩, ⟨2, "b", "", false⟩,
            ⟨3, "c", "", false⟩],
          selected_index := 2, mode := AppMode.Normal,
          input_buffer := "", next_id := 4 }).selected_index = 1) :=
  delete_task_repairs_selection _

/-- C4 witness: the reachability statement evaluated at a one-task load
followed by one Down key. -/
theorem selection_valid_and_arrows_clamped_witness :
    (let ts : List Task := [⟨1, "a", "", false⟩]
    let evs : List KeyEvent := [{ code := KeyCode.Down, ctrl := false }]
    ((reachable ts evs).tasks ≠ [] →
      (reachable ts evs).selected_index < (reachable ts evs).tasks.length) ∧
    (∀ b : Bool, (reachable ts evs).mode = AppMode.Normal →
      (handle_input (reachable ts evs) { code := KeyCode.Up, ctrl := b }).2 =
          (reachable ts evs).move_up ∧
      (handle_input (reachable ts evs)
          { code := KeyCode.Down, ctrl := b }).2 =
          (reachable ts evs).move_down) ∧
    (reachable ts evs).move_up.tasks = (reachable ts evs).tasks ∧
    (reachable ts evs).move_down.tasks = (reachable ts evs).tasks ∧
    ((reachable ts evs).tasks = [] →
      (reachable ts evs).move_up = reachable ts evs ∧
      (reachable ts evs).move_down = reachable ts evs) ∧
    ((reachable ts evs).tasks ≠ [] →
      (reachable ts evs).move_up.selected_index =
        (reachable ts evs).selected_index - 1 ∧
      (reachable ts evs).move_down.selected_index =
        min ((reachable ts evs).selected_index + 1)
          ((reachable ts evs).tasks.length - 1))) :=
  selection_valid_and_arrows_clamped _ _

end RTasks
